import Mathlib

/-!
Verification of the metadata bundle core (music21/metadata/bundles.py).

This file gives a shallow embedding of the data model and operations of
MetadataEntry and MetadataBundle: the key codec (corpusPathToKey), the
set-algebra layer (_apply_set_operation / _apply_set_predicate and the
derived methods), the comparison predicates, search, validate, the
staleness decision of addFromPaths, and the persistence entry points
read and write.  External collaborators (the filesystem, the snapshot
serializer, the payload search capability) are modelled as explicit
parameters.  Python object identity of entries is modelled by a
distinguishing object-id field, since MetadataEntry defines no __eq__
and Python therefore compares entries by identity.
-/

/-! ## String helpers

Structural-recursion implementations of the Python string operations the
source uses, over the character list of a string, so that concrete
instances evaluate by kernel reduction. -/

/-- Tests whether the character list pat is an initial segment of s
(Python str.startswith, character-wise). -/
def startsWithChars : List Char → List Char → Bool
  | _, [] => true
  | [], _ :: _ => false
  | c :: cs, p :: ps => c == p && startsWithChars cs ps

/-- Tests whether pat occurs as a contiguous run inside s
(Python `pat in s`). -/
def containsChars : List Char → List Char → Bool
  | [], pat => startsWithChars [] pat
  | s@(_ :: rest), pat => startsWithChars s pat || containsChars rest pat

/-- Fuelled worker for splitTailChars: scans left to right, consuming
non-overlapping occurrences of pat, and returns the final segment.
The fuel bounds the number of scan steps; each step removes at least
one character, so fuel equal to the length of s is exact. -/
def splitTailAux : Nat → List Char → List Char → List Char
  | 0, s, _ => s
  | Nat.succ n, s, pat =>
    match s with
    | [] => []
    | _ :: rest =>
      if !pat.isEmpty && startsWithChars s pat then
        splitTailAux n (s.drop pat.length) pat
      else if containsChars rest pat then
        splitTailAux n rest pat
      else s

/-- The last element of the Python split of s on pat, i.e.
`s.split(pat)[-1]`: the suffix after the last non-overlapping
occurrence of pat under a left-to-right scan (s itself when pat does
not occur). -/
def splitTailChars (s pat : List Char) : List Char :=
  splitTailAux s.length s pat

/-- Python str.startswith on strings. -/
def strStartsWith (s pat : String) : Bool :=
  startsWithChars s.data pat.data

/-- Python str.endswith on strings. -/
def strEndsWith (s pat : String) : Bool :=
  startsWithChars s.data.reverse pat.data.reverse

/-- Python str.replace(a, b) for single-character a and b. -/
def replaceChar (s : String) (a b : Char) : String :=
  ⟨s.data.map (fun c => if c == a then b else c)⟩

/-! ## KeyCodec -/

/-- The platform path separator os.sep, modelled as the posix value. -/
def osSep : String := "/"

/-- MetadataBundle.corpusPathToKey: derive the canonical metadata key
from a file path and an optional number.  If the path mentions corpus
or music21, keep only the suffix after the last occurrence of corpus
(the last element of the Python split on the word corpus); strip one
leading separator;
replace the slash, the platform separator and the dot by underscores;
and append an underscore and the number when one is given. -/
def corpusPathToKey (filePath : String) (number : Option Int) : String :=
  let corpusPath :=
    if containsChars filePath.data "corpus".data
        || containsChars filePath.data "music21".data then
      String.mk (splitTailChars filePath.data "corpus".data)
    else
      filePath
  let corpusPath :=
    if strStartsWith corpusPath osSep then String.mk (corpusPath.data.drop 1)
    else corpusPath
  let corpusPath := replaceChar corpusPath '/' '_'
  let corpusPath := replaceChar corpusPath '/' '_'
  let corpusPath := replaceChar corpusPath '.' '_'
  match number with
  | some n => corpusPath ++ "_" ++ toString n
  | none => corpusPath

/-! ## Data model -/

/-- The payload search capability, treated as a black box: RichMetadata.search returns a
pair whose first component says whether the query (optionally scoped to
a field) matched; only that first component is consumed by the bundle,
so only it is modelled. -/
structure MetadataPayload where
  searchMatch : String → Option String → Bool

/-- MetadataEntry: source path, optional number, optional payload.
The oid field models Python object identity: MetadataEntry defines no
__eq__, so two entries compare equal in Python exactly when they are
the same object; distinct objects carry distinct oids. -/
structure MetadataEntry where
  oid : Nat
  sourcePath : String
  number : Option Int
  metadataPayload : Option MetadataPayload

/-- MetadataEntry.corpusPath: the canonical key of an entry. -/
def MetadataEntry.corpusPath (e : MetadataEntry) : String :=
  corpusPathToKey e.sourcePath e.number

/-- MetadataBundle: an optional namespace name and the keyed entry
mapping.  The Python dict is modelled as an association list in
iteration order; a real dict has no duplicate keys, which theorems
assume through Nodup hypotheses where it matters. -/
structure MetadataBundle where
  name : Option String
  metadataEntries : List (String × MetadataEntry)

/-! ## Dict helpers (Python dict semantics) -/

/-- Python `d[j]` / `j in d` support: the value at the first pair whose
key is j. -/
def dictGet : List (String × MetadataEntry) → String → Option MetadataEntry
  | [], _ => none
  | (k, v) :: rest, j => if k = j then some v else dictGet rest j

/-- Python `d.keys()` in iteration order. -/
def dictKeys (d : List (String × MetadataEntry)) : List String :=
  d.map Prod.fst

/-- Python `==` on two entries: identity comparison (MetadataEntry
defines no __eq__). -/
def entrySame (e1 e2 : MetadataEntry) : Bool :=
  e1.oid == e2.oid

/-- Python `==` on two entry dicts: equal key sets and, at every key,
values that compare equal (here: identical objects). -/
def dictBeq (d1 d2 : List (String × MetadataEntry)) : Bool :=
  (d1.all fun kv =>
    match dictGet d2 kv.1 with
    | some w => entrySame kv.2 w
    | none => false) &&
  (d2.all fun kv =>
    match dictGet d1 kv.1 with
    | some w => entrySame kv.2 w
    | none => false)

/-! ## Set algebra (_apply_set_operation / _apply_set_predicate) -/

/-- The closed set of set-operation names _apply_set_operation is
invoked with: the method names union, intersection, difference and
symmetric_difference, and the operator dispatch names used by the
special methods, where on Python sets __or__ is union, __and__ is
intersection, __sub__ is difference and __xor__ is symmetric
difference. -/
inductive SetOp
  | union
  | intersection
  | difference
  | symmetricDifference
  | orOp
  | andOp
  | subOp
  | xorOp
deriving DecidableEq

/-- The native Python set operation named by a SetOp, over key sets
represented as lists: getattr(selfKeys, operator)(otherKeys). -/
def runSetOp : SetOp → List String → List String → List String
  | .union, s, o => s ++ o.filter (fun k => !decide (k ∈ s))
  | .orOp, s, o => s ++ o.filter (fun k => !decide (k ∈ s))
  | .intersection, s, o => s.filter (fun k => decide (k ∈ o))
  | .andOp, s, o => s.filter (fun k => decide (k ∈ o))
  | .difference, s, o => s.filter (fun k => !decide (k ∈ o))
  | .subOp, s, o => s.filter (fun k => !decide (k ∈ o))
  | .symmetricDifference, s, o =>
      s.filter (fun k => !decide (k ∈ o)) ++ o.filter (fun k => !decide (k ∈ s))
  | .xorOp, s, o =>
      s.filter (fun k => !decide (k ∈ o)) ++ o.filter (fun k => !decide (k ∈ s))

/-- The rehydration choice of _apply_set_operation: for a result key,
take the entry from self when self holds the key, else from the other
bundle. -/
def pickEntry (selfE otherE : List (String × MetadataEntry)) (k : String) :
    Option MetadataEntry :=
  match dictGet selfE k with
  | some e => some e
  | none => dictGet otherE k

/-- MetadataBundle._apply_set_operation after its isinstance assert has
passed: run the named native set operation on the two key sets, then
build a fresh bundle (type(self)(), hence namespace name None) holding,
at each result key, the entry picked by pickEntry. -/
def applySetOperation (op : SetOp) (self other : MetadataBundle) : MetadataBundle :=
  let selfKeys := dictKeys self.metadataEntries
  let otherKeys := dictKeys other.metadataEntries
  let resultKeys := runSetOp op selfKeys otherKeys
  { name := none,
    metadataEntries :=
      resultKeys.filterMap fun k =>
        (pickEntry self.metadataEntries other.metadataEntries k).map
          (fun e => (k, e)) }

/-- An operand of a set operation or comparison: either a metadata
bundle of the same concrete kind, or any other Python value (a string,
a number, ...), identified only by an abstract description. -/
inductive Operand
  | bundle (b : MetadataBundle)
  | nonBundle (descr : String)

/-- The Python exceptions the modelled code can raise. -/
inductive PyError
  | assertionError
  | metadataException
  | typeError
deriving DecidableEq

/-- MetadataBundle._apply_set_operation including its
`assert isinstance(metadataBundle, type(self))` guard: a non-bundle
operand raises AssertionError, which propagates to the caller. -/
def applySetOperationChecked (op : SetOp) (self : MetadataBundle)
    (x : Operand) : Except PyError MetadataBundle :=
  match x with
  | .bundle other => .ok (applySetOperation op self other)
  | .nonBundle _ => .error .assertionError

/-- The closed set of predicate names _apply_set_predicate is invoked
with: the operator dispatch names of __lt__, __le__, __gt__ and __ge__,
and the method names issubset, issuperset and isdisjoint, where on
Python sets __lt__ is proper subset, __le__ subset, __gt__ proper
superset and __ge__ superset. -/
inductive SetPred
  | ltP
  | leP
  | gtP
  | geP
  | issubset
  | issuperset
  | isdisjoint
deriving DecidableEq

/-- Subset test on key sets represented as lists. -/
def subsetB (s o : List String) : Bool :=
  s.all (fun k => decide (k ∈ o))

/-- The native Python set predicate named by a SetPred. -/
def runSetPred : SetPred → List String → List String → Bool
  | .ltP, s, o => subsetB s o && !subsetB o s
  | .leP, s, o => subsetB s o
  | .gtP, s, o => subsetB o s && !subsetB s o
  | .geP, s, o => subsetB o s
  | .issubset, s, o => subsetB s o
  | .issuperset, s, o => subsetB o s
  | .isdisjoint, s, o => s.all (fun k => !decide (k ∈ o))

/-- MetadataBundle._apply_set_predicate including its isinstance
assert: a non-bundle operand raises AssertionError. -/
def applySetPredicateChecked (p : SetPred) (self : MetadataBundle)
    (x : Operand) : Except PyError Bool :=
  match x with
  | .bundle other =>
      .ok (runSetPred p (dictKeys self.metadataEntries)
        (dictKeys other.metadataEntries))
  | .nonBundle _ => .error .assertionError

/-- MetadataBundle.union. -/
def MetadataBundle.union (self other : MetadataBundle) : MetadataBundle :=
  applySetOperation .union self other

/-- MetadataBundle.intersection. -/
def MetadataBundle.intersection (self other : MetadataBundle) : MetadataBundle :=
  applySetOperation .intersection self other

/-- MetadataBundle.__eq__: true when the operand is of the same type
and holds an identical set of entries, otherwise false; never raises. -/
def MetadataBundle.eqPy (self : MetadataBundle) (x : Operand) : Bool :=
  match x with
  | .bundle other => dictBeq self.metadataEntries other.metadataEntries
  | .nonBundle _ => false

/-- Python `A == B` for two bundles (the bundle-operand case of
MetadataBundle.__eq__). -/
def bundleEqB (a b : MetadataBundle) : Bool :=
  dictBeq a.metadataEntries b.metadataEntries

/-- MetadataBundle.__lt__ with a bundle operand (proper subset on key
sets). -/
def MetadataBundle.ltPy (self other : MetadataBundle) : Bool :=
  runSetPred .ltP (dictKeys self.metadataEntries) (dictKeys other.metadataEntries)

/-- MetadataBundle.__le__ with a bundle operand (subset on key sets). -/
def MetadataBundle.lePy (self other : MetadataBundle) : Bool :=
  runSetPred .leP (dictKeys self.metadataEntries) (dictKeys other.metadataEntries)

/-- MetadataBundle.__gt__ with a bundle operand (proper superset on key
sets). -/
def MetadataBundle.gtPy (self other : MetadataBundle) : Bool :=
  runSetPred .gtP (dictKeys self.metadataEntries) (dictKeys other.metadataEntries)

/-- MetadataBundle.__ge__ with a bundle operand (superset on key
sets). -/
def MetadataBundle.gePy (self other : MetadataBundle) : Bool :=
  runSetPred .geP (dictKeys self.metadataEntries) (dictKeys other.metadataEntries)

/-- MetadataBundle.__ne__, fuelled: its body is `return self != expr`,
which re-invokes the same inequality operator on the same arguments, so
no amount of fuel ever produces a result.  The fuel counts nested
re-invocations; none means the call has not returned within the given
fuel. -/
def MetadataBundle.nePyFuel : Nat → MetadataBundle → Operand → Option Bool
  | 0, _, _ => none
  | n + 1, self, expr => MetadataBundle.nePyFuel n self expr

/-! ## Persistence (filePath / write / read) -/

/-- The environment quantities the default file path depends on:
common.getMetadataCacheFilePath() and environLocal.getRootTempDir(). -/
structure CorpusEnv where
  metadataCacheFilePath : String
  rootTempDir : String

/-- MetadataBundle.filePath: None for an unnamed bundle; for the names
virtual and core a file name.json under the metadata cache path; for
the name local a file local.json under the root temporary directory;
for any other name a file local-name.json under the root temporary
directory.  os.path.join is modelled as separator concatenation. -/
def MetadataBundle.filePath (b : MetadataBundle) (env : CorpusEnv) : Option String :=
  match b.name with
  | none => none
  | some n =>
    if n = "virtual" ∨ n = "core" then
      some (env.metadataCacheFilePath ++ "/" ++ n ++ ".json")
    else if n = "local" then
      some (env.rootTempDir ++ "/" ++ n ++ ".json")
    else
      some (env.rootTempDir ++ "/" ++ "local-" ++ n ++ ".json")

/-- The observable effect of MetadataBundle.write: either the full
entry mapping is serialized to some path (overwriting that file), or
nothing is written and the bundle is returned unchanged. -/
inductive WriteOutcome
  | wrote (path : String) (entries : List (String × MetadataEntry))
  | noop

/-- MetadataBundle.write: the source first computes
`filePath = filePath or self.filePath` (Python or, under which an empty
string argument also falls through to self.filePath), but then, inside
`if self.filePath is not None:`, immediately reassigns
`filePath = self.filePath` and serializes there; when self.filePath is
None it returns self without writing, whatever the argument was. -/
def MetadataBundle.write (b : MetadataBundle) (env : CorpusEnv)
    (filePathArg : Option String) : WriteOutcome :=
  let _filePath := match filePathArg with
    | some s => if s = "" then b.filePath env else some s
    | none => b.filePath env
  match b.filePath env with
  | some selfPath => WriteOutcome.wrote selfPath b.metadataEntries
  | none => WriteOutcome.noop

/-- The filesystem and snapshot codec as seen by read: which paths
exist, and, modelled from the spec for the external serializer
capability (freezeThaw.JSONThawer), the entry mapping the snapshot at a
path deserializes to; jsonRead replaces the entries mapping with the
deserialized content. -/
structure FileSystem where
  pathExists : String → Bool
  snapshotEntries : String → List (String × MetadataEntry)

/-- The path read resolves: the explicit argument when given, else the
namespace-derived default self.filePath. -/
def resolveReadPath (b : MetadataBundle) (env : CorpusEnv)
    (filePathArg : Option String) : Option String :=
  match filePathArg with
  | none => b.filePath env
  | some p => some p

/-- MetadataBundle.read: resolve the path; raise MetadataException when
it is None and the bundle is unnamed; return the bundle unchanged when
the resolved file does not exist; otherwise replace the entries with
the deserialized snapshot.  (The os.path.exists(None) TypeError branch
is unreachable: a None resolved path forces a None name.) -/
def MetadataBundle.read (b : MetadataBundle) (env : CorpusEnv)
    (fs : FileSystem) (filePathArg : Option String) :
    Except PyError MetadataBundle :=
  let fp := resolveReadPath b env filePathArg
  if fp = none ∧ b.name = none then
    .error .metadataException
  else
    match fp with
    | none => .error .typeError
    | some p =>
      if fs.pathExists p = false then .ok b
      else .ok { b with metadataEntries := fs.snapshotEntries p }

/-! ## Validator -/

/-- os.path.isabs, posix model. -/
def isAbs (p : String) : Bool := strStartsWith p "/"

/-- The path existence is checked against for an entry source path:
the path itself when absolute, else
os.path.abspath(os.path.join(common.getCorpusFilePath(), sourcePath)),
modelled as separator concatenation onto an absolute, normalized
corpus root. -/
def resolveSourcePath (corpusRoot sp : String) : String :=
  if isAbs sp then sp else corpusRoot ++ "/" ++ sp

/-- The sweep loop of MetadataBundle.validate: walk the entries in
iteration order carrying the validatedPaths memo set and the
accumulated invalidatedKeys list.  A source path already in the memo is
skipped outright; an http: source path is memoized and kept; otherwise
the resolved path is checked for existence and the key is marked for
removal when it is absent. -/
def validateAux (fsExists : String → Bool) (corpusRoot : String) :
    List (String × MetadataEntry) → List String → List String → List String
  | [], _, invalidated => invalidated
  | (key, e) :: rest, validatedPaths, invalidated =>
    if e.sourcePath ∈ validatedPaths then
      validateAux fsExists corpusRoot rest validatedPaths invalidated
    else if strStartsWith e.sourcePath "http:" then
      validateAux fsExists corpusRoot rest (e.sourcePath :: validatedPaths) invalidated
    else
      let resolved := resolveSourcePath corpusRoot e.sourcePath
      let invalidated2 :=
        if fsExists resolved then invalidated else invalidated ++ [key]
      validateAux fsExists corpusRoot rest (e.sourcePath :: validatedPaths) invalidated2

/-- The invalidatedKeys list validate computes for a bundle. -/
def MetadataBundle.invalidatedKeys (b : MetadataBundle)
    (fsExists : String → Bool) (corpusRoot : String) : List String :=
  validateAux fsExists corpusRoot b.metadataEntries [] []

/-- MetadataBundle.validate: compute the invalidated keys, delete each
of them from the entries mapping, and return the number of removed
keys together with the updated bundle (the source mutates in place and
returns the count). -/
def MetadataBundle.validate (b : MetadataBundle) (fsExists : String → Bool)
    (corpusRoot : String) : Nat × MetadataBundle :=
  let invalidated := b.invalidatedKeys fsExists corpusRoot
  (invalidated.length,
   { b with metadataEntries :=
      b.metadataEntries.filter (fun kv => !decide (kv.1 ∈ invalidated)) })

/-! ## addFromPaths: the staleness decision -/

/-- The per-path normalization at the top of the addFromPaths loop:
paths that start with http are left alone, all others are made
absolute; os.path.abspath is an external capability, passed in as a
function. -/
def normalizeAddPath (abspath : String → String) (p : String) : String :=
  if strStartsWith p "http" then p else abspath p

/-- The job-scheduling decision of MetadataBundle.addFromPaths, one
output element per scheduled job: a path is skipped (no job) exactly
when its canonical key is already in the entries mapping, the key is
not network-addressed, and the source file's change time
(os.path.getctime) is strictly below the bundle snapshot's change time
captured once before the loop.  Every other path gets a rebuild job,
carrying the normalized path. -/
def addFromPathsScheduled (entriesKeys : List String) (bundleTime : ℚ)
    (getctime : String → ℚ) (abspath : String → String)
    (paths : List String) : List String :=
  paths.filterMap fun p =>
    let path := normalizeAddPath abspath p
    let key := corpusPathToKey path none
    if decide (key ∈ entriesKeys) && !strStartsWith key "http"
        && decide (getctime path < bundleTime) then
      none
    else
      some path

/-! ## Search -/

/-- The extension filter loop of MetadataBundle.search over a given
fileExtensions list: include on the first member the source path ends
with, or on the first member that ends in xml while the source path
ends in mxl or mx; exclude when no member fires. -/
def extLoop (sourcePath : String) : List String → Bool
  | [] => false
  | ext :: rest =>
    if strEndsWith sourcePath ext then true
    else if strEndsWith ext "xml"
        && (strEndsWith sourcePath "mxl" || strEndsWith sourcePath "mx") then true
    else extLoop sourcePath rest

/-- The include decision of search for one entry: true when no filter
is given, else the extension loop's verdict. -/
def extensionFilter (fileExtensions : Option (List String))
    (sourcePath : String) : Bool :=
  match fileExtensions with
  | none => true
  | some exts => extLoop sourcePath exts

/-- The combined per-entry keep condition of search: a non-stub payload
that reports a match, and a passing extension filter. -/
def searchKeeps (query : String) (field : Option String)
    (fileExtensions : Option (List String)) (e : MetadataEntry) : Bool :=
  match e.metadataPayload with
  | none => false
  | some payload =>
      payload.searchMatch query field && extensionFilter fileExtensions e.sourcePath

/-- The accumulation loop of MetadataBundle.search: skip stub entries
(payload None); keep an entry when the payload reports a match for the
query (scoped to the field when given), the extension filter passes,
and the key is not yet in the result mapping. -/
def searchLoop (query : String) (field : Option String)
    (fileExtensions : Option (List String)) :
    List (String × MetadataEntry) → List (String × MetadataEntry) →
    List (String × MetadataEntry)
  | [], acc => acc
  | (key, e) :: rest, acc =>
    match e.metadataPayload with
    | none => searchLoop query field fileExtensions rest acc
    | some payload =>
      if payload.searchMatch query field then
        if extensionFilter fileExtensions e.sourcePath
            && (dictGet acc key).isNone then
          searchLoop query field fileExtensions rest (acc ++ [(key, e)])
        else
          searchLoop query field fileExtensions rest acc
      else
        searchLoop query field fileExtensions rest acc

/-- MetadataBundle.search: build a new anonymous bundle from the
accumulation loop, starting empty; self is not touched. -/
def MetadataBundle.search (b : MetadataBundle) (query : String)
    (field : Option String) (fileExtensions : Option (List String)) :
    MetadataBundle :=
  { name := none,
    metadataEntries := searchLoop query field fileExtensions b.metadataEntries [] }

/-! ## Spec-side semantic definitions (for comparison with the code) -/

/-- Membership semantics of the corresponding native set operation, as
the spec words it: union is or, intersection is and, difference keeps
the left side only, symmetric difference keeps exactly one side. -/
def setOpSpecMem : SetOp → Prop → Prop → Prop
  | .union, a, b | .orOp, a, b => a ∨ b
  | .intersection, a, b | .andOp, a, b => a ∧ b
  | .difference, a, b | .subOp, a, b => a ∧ ¬b
  | .symmetricDifference, a, b | .xorOp, a, b => (a ∧ ¬b) ∨ (b ∧ ¬a)

/-- The search membership condition as the claim words it: the payload
is non-null and reports a match, and the extension filter passes -
either no filter is given, or the source path ends with a filter
member, or some filter member is xml-family while the source path
carries a recognized container extension (mxl or mx). -/
def searchSpecKeeps (query : String) (field : Option String)
    (fileExtensions : Option (List String)) (e : MetadataEntry) : Prop :=
  ∃ p, e.metadataPayload = some p ∧ p.searchMatch query field = true ∧
    (fileExtensions = none ∨
      (∃ exts ext, fileExtensions = some exts ∧ ext ∈ exts ∧
        strEndsWith e.sourcePath ext = true) ∨
      (∃ exts ext, fileExtensions = some exts ∧ ext ∈ exts ∧
        strEndsWith ext "xml" = true ∧
        (strEndsWith e.sourcePath "mxl" = true ∨ strEndsWith e.sourcePath "mx" = true)))

/-- The key of the first entry, in iteration order, whose source path
is the given one. -/
def firstKeyForPath : List (String × MetadataEntry) → String → Option String
  | [], _ => none
  | (k, e) :: rest, sp => if e.sourcePath = sp then some k else firstKeyForPath rest sp

/-! ## Concrete instances used by witnesses and counterexamples -/

/-- A concrete environment for the default-path function. -/
def envW : CorpusEnv := ⟨"/cache", "/tmp"⟩

/-- A filesystem on which no path exists. -/
def fsNoW : FileSystem := ⟨fun _ => false, fun _ => []⟩

/-- A payload whose search capability matches every query. -/
def payloadTrueW : MetadataPayload := ⟨fun _ _ => true⟩

/-- A stub-free entry with an xml source. -/
def entryW1 : MetadataEntry := ⟨1, "/w/a.xml", none, some payloadTrueW⟩

/-- A stub-free entry with a krn source. -/
def entryW2 : MetadataEntry := ⟨2, "/w/b.krn", none, some payloadTrueW⟩

/-- A stub-free entry with an mxl (compressed container) source. -/
def entryW3 : MetadataEntry := ⟨3, "/w/c.mxl", none, some payloadTrueW⟩

/-- A one-entry anonymous bundle. -/
def bundleWA : MetadataBundle := ⟨none, [("w_a_xml", entryW1)]⟩

/-- A one-entry anonymous bundle, key-disjoint from bundleWA. -/
def bundleWB : MetadataBundle := ⟨none, [("w_b_krn", entryW2)]⟩

/-- An anonymous bundle with one entry whose source is its mxl file and
one whose source is its krn file. -/
def bundleW5 : MetadataBundle := ⟨none, [("w_c_mxl", entryW3), ("w_b_krn", entryW2)]⟩

/-- A named bundle for the core namespace. -/
def bundleWCore : MetadataBundle := ⟨some "core", [("w_a_xml", entryW1)]⟩

/-- An anonymous bundle holding one entry under the key k, as a distinct
object (oid 101) from the entry cexB holds under the same key. -/
def cexBundleA : MetadataBundle := ⟨none, [("k", ⟨101, "/p.xml", none, none⟩)]⟩

/-- An anonymous bundle holding, under the same key k as cexBundleA, a
distinct entry object (oid 102) with the same source path. -/
def cexBundleB : MetadataBundle := ⟨none, [("k", ⟨102, "/p.xml", none, none⟩)]⟩

/-- An anonymous bundle with two distinct entries (keys k1, k2) sharing
the single missing source path /gone.xml. -/
def cexBundleC3 : MetadataBundle :=
  ⟨none, [("k1", ⟨10, "/gone.xml", none, none⟩), ("k2", ⟨11, "/gone.xml", none, none⟩)]⟩

/-! ## Helper lemmas about the dict model -/

theorem dictGet_isSome_iff (d : List (String × MetadataEntry)) (j : String) :
    (dictGet d j).isSome = true ↔ j ∈ dictKeys d := by
  induction d with
  | nil => simp [dictGet, dictKeys]
  | cons kv rest ih =>
    obtain ⟨k, v⟩ := kv
    by_cases h : k = j
    · subst h; simp [dictGet, dictKeys]
    · simp [dictGet, dictKeys, h, ih, Ne.symm h]

theorem dictGet_eq_none_iff (d : List (String × MetadataEntry)) (j : String) :
    dictGet d j = none ↔ j ∉ dictKeys d := by
  rw [← dictGet_isSome_iff]
  cases dictGet d j <;> simp

theorem dictGet_mem (d : List (String × MetadataEntry)) (j : String)
    (v : MetadataEntry) (h : dictGet d j = some v) : (j, v) ∈ d := by
  induction d with
  | nil => simp [dictGet] at h
  | cons kv rest ih =>
    obtain ⟨k, w⟩ := kv
    by_cases hk : k = j
    · subst hk
      simp [dictGet] at h
      subst h
      exact List.mem_cons_self _ _
    · simp only [dictGet, if_neg hk] at h
      exact List.mem_cons_of_mem _ (ih h)

theorem dictGet_of_mem_nodup (d : List (String × MetadataEntry))
    (hnd : (dictKeys d).Nodup) (k : String) (v : MetadataEntry)
    (hm : (k, v) ∈ d) : dictGet d k = some v := by
  induction d with
  | nil => simp at hm
  | cons kv rest ih =>
    obtain ⟨k0, w⟩ := kv
    simp only [dictKeys, List.map_cons, List.nodup_cons] at hnd
    rcases List.mem_cons.mp hm with heq | hmem
    · cases heq
      simp [dictGet]
    · have hk : k0 ≠ k := by
        intro hq
        subst hq
        exact hnd.1 (List.mem_map.mpr ⟨(k0, v), hmem, rfl⟩)
      simp only [dictGet, if_neg hk]
      exact ih hnd.2 hmem

theorem dictGet_pickMap (pick : String → Option MetadataEntry)
    (ks : List String) (j : String) :
    dictGet (ks.filterMap fun k => (pick k).map fun e => (k, e)) j =
      if j ∈ ks then pick j else none := by
  induction ks with
  | nil => simp [dictGet]
  | cons k rest ih =>
    by_cases hk : k = j
    · subst hk
      cases hp : pick k with
      | none => simp [List.filterMap_cons, hp, ih]
      | some e => simp [List.filterMap_cons, hp, dictGet]
    · cases hp : pick k with
      | none =>
        rw [List.filterMap_cons]
        simp only [hp, Option.map_none']
        rw [ih]
        simp [hk, Ne.symm hk]
      | some e =>
        rw [List.filterMap_cons]
        simp only [hp, Option.map_some']
        simp only [dictGet, if_neg hk]
        rw [ih]
        simp [hk, Ne.symm hk]

theorem dictKeys_pickMap (pick : String → Option MetadataEntry)
    (ks : List String) :
    dictKeys (ks.filterMap fun k => (pick k).map fun e => (k, e)) =
      ks.filter (fun k => (pick k).isSome) := by
  simp only [dictKeys]
  induction ks with
  | nil => rfl
  | cons k rest ih =>
    cases hp : pick k with
    | none =>
      simp only [List.filterMap_cons, hp, Option.map_none', List.filter_cons]
      simpa [hp] using ih
    | some e =>
      simp only [List.filterMap_cons, hp, Option.map_some', List.filter_cons,
        List.map_cons]
      simp [hp, ih]

theorem length_pickMap (pick : String → Option MetadataEntry)
    (ks : List String) (h : ∀ k ∈ ks, (pick k).isSome = true) :
    (ks.filterMap fun k => (pick k).map fun e => (k, e)).length = ks.length := by
  induction ks with
  | nil => rfl
  | cons k rest ih =>
    have hk := h k (List.mem_cons_self _ _)
    cases hp : pick k with
    | none => rw [hp] at hk; simp at hk
    | some e =>
      simp only [List.filterMap_cons, hp, Option.map_some', List.length_cons]
      rw [ih (fun x hx => h x (List.mem_cons_of_mem _ hx))]

/-! ## Helper lemmas about the set operations -/

theorem mem_runSetOp (op : SetOp) (s o : List String) (j : String) :
    j ∈ runSetOp op s o ↔ setOpSpecMem op (j ∈ s) (j ∈ o) := by
  cases op <;>
    simp [runSetOp, setOpSpecMem, List.mem_filter, List.mem_append] <;>
    tauto

theorem mem_runSetOp_orig (op : SetOp) (s o : List String) (j : String)
    (h : j ∈ runSetOp op s o) : j ∈ s ∨ j ∈ o := by
  rw [mem_runSetOp] at h
  cases op <;> simp [setOpSpecMem] at h <;> tauto

theorem pickEntry_eq (selfE otherE : List (String × MetadataEntry)) (j : String) :
    pickEntry selfE otherE j =
      if j ∈ dictKeys selfE then dictGet selfE j else dictGet otherE j := by
  unfold pickEntry
  by_cases h : j ∈ dictKeys selfE
  · rw [if_pos h]
    rw [← dictGet_isSome_iff] at h
    cases hs : dictGet selfE j with
    | none => rw [hs] at h; simp at h
    | some e => rfl
  · rw [if_neg h]
    rw [← dictGet_eq_none_iff] at h
    rw [h]

theorem pickEntry_isSome (selfE otherE : List (String × MetadataEntry))
    (j : String) (h : j ∈ dictKeys selfE ∨ j ∈ dictKeys otherE) :
    (pickEntry selfE otherE j).isSome = true := by
  rw [pickEntry_eq]
  by_cases hs : j ∈ dictKeys selfE
  · rw [if_pos hs, dictGet_isSome_iff]; exact hs
  · rw [if_neg hs, dictGet_isSome_iff]
    exact h.resolve_left hs

theorem dictGet_applySetOperation (op : SetOp) (A B : MetadataBundle) (j : String) :
    dictGet (applySetOperation op A B).metadataEntries j =
      if j ∈ runSetOp op (dictKeys A.metadataEntries) (dictKeys B.metadataEntries)
      then pickEntry A.metadataEntries B.metadataEntries j
      else none :=
  dictGet_pickMap _ _ _

theorem mem_dictKeys_applySetOperation (op : SetOp) (A B : MetadataBundle) (j : String) :
    j ∈ dictKeys (applySetOperation op A B).metadataEntries ↔
      j ∈ runSetOp op (dictKeys A.metadataEntries) (dictKeys B.metadataEntries) := by
  show j ∈ dictKeys (List.filterMap _ _) ↔ _
  rw [dictKeys_pickMap]
  rw [List.mem_filter]
  constructor
  · exact fun h => h.1
  · intro h
    refine ⟨h, pickEntry_isSome _ _ _ ?_⟩
    exact mem_runSetOp_orig _ _ _ _ h

/-! ## Claim theorems -/

/-- C1: divergence witness for the write path resolution.  For an
anonymous bundle, write with an explicit path is a no-op (nothing is
serialized to the explicit path), and for a named bundle, write with an
explicit path serializes to the namespace-derived default location
instead of the explicit path; the claim says an explicit path is always
honored and that a no-op happens only for an anonymous bundle given no
path. -/
theorem c1_write_divergence :
    MetadataBundle.write ⟨none, [("w_a_xml", entryW1)]⟩ envW (some "/tmp/out.json") =
      WriteOutcome.noop ∧
    MetadataBundle.write bundleWCore envW (some "/tmp/out.json") =
      WriteOutcome.wrote "/cache/core.json" bundleWCore.metadataEntries :=
  ⟨rfl, rfl⟩

/-- C7: a set-algebra operation or a comparison predicate applied to a
non-bundle operand raises (AssertionError from the isinstance assert),
while equality comparison returns false for any non-bundle operand and
never raises. -/
theorem c7_invalid_operand (self : MetadataBundle) (descr : String)
    (op : SetOp) (pr : SetPred) :
    applySetOperationChecked op self (Operand.nonBundle descr) =
      Except.error PyError.assertionError ∧
    applySetPredicateChecked pr self (Operand.nonBundle descr) =
      Except.error PyError.assertionError ∧
    MetadataBundle.eqPy self (Operand.nonBundle descr) = false :=
  ⟨rfl, rfl, rfl⟩

/-- C8: every set-algebra operation (union, intersection, difference,
symmetric difference, and the operator dispatch forms of the and, or,
sub and xor operators) yields a bundle whose namespace name is None,
whose key set realizes the corresponding native set operation on the
two operands' key sets, and whose entry at each key comes from self
when self holds the key, else from the other operand. -/
theorem c8_set_operation_shape (op : SetOp) (self other : MetadataBundle) :
    (applySetOperation op self other).name = none ∧
    (∀ k, k ∈ dictKeys (applySetOperation op self other).metadataEntries ↔
      setOpSpecMem op (k ∈ dictKeys self.metadataEntries)
        (k ∈ dictKeys other.metadataEntries)) ∧
    (∀ k, k ∈ dictKeys (applySetOperation op self other).metadataEntries →
      dictGet (applySetOperation op self other).metadataEntries k =
        if k ∈ dictKeys self.metadataEntries then dictGet self.metadataEntries k
        else dictGet other.metadataEntries k) := by
  refine ⟨rfl, ?_, ?_⟩
  · intro k
    rw [mem_dictKeys_applySetOperation, mem_runSetOp]
  · intro k hk
    rw [mem_dictKeys_applySetOperation] at hk
    rw [dictGet_applySetOperation, if_pos hk, pickEntry_eq]

/-- C8 witness: at the union of two concrete one-entry bundles, the
entry at the key of the first operand is taken from that operand. -/
theorem c8_set_operation_shape_witness :
    dictGet (applySetOperation SetOp.union bundleWA bundleWB).metadataEntries
        "w_a_xml" =
      if "w_a_xml" ∈ dictKeys bundleWA.metadataEntries
      then dictGet bundleWA.metadataEntries "w_a_xml"
      else dictGet bundleWB.metadataEntries "w_a_xml" :=
  (c8_set_operation_shape SetOp.union bundleWA bundleWB).2.2 "w_a_xml" (by decide)

/-- C10: the model of MetadataBundle.__ne__, whose body is
`return self != expr` and hence re-invokes the same operator on the
same arguments, produces no result under any amount of fuel: the
inequality comparison never returns. -/
theorem c10_ne_never_returns (n : Nat) (self : MetadataBundle) (expr : Operand) :
    MetadataBundle.nePyFuel n self expr = none := by
  induction n with
  | zero => rfl
  | succ m ih => simpa [MetadataBundle.nePyFuel] using ih

/-! ## Helper lemmas for the comparison predicates -/

theorem subsetB_iff (s o : List String) :
    subsetB s o = true ↔ s.toFinset ⊆ o.toFinset := by
  simp [subsetB, List.all_eq_true, Finset.subset_iff, List.mem_toFinset]

theorem and_not_subsetB_iff (s o : List String) :
    (subsetB s o && !subsetB o s) = true ↔ s.toFinset ⊂ o.toFinset := by
  rw [ssubset_iff_subset_not_subset, ← subsetB_iff, ← subsetB_iff]
  cases h1 : subsetB s o <;> cases h2 : subsetB o s <;> simp

/-- C9: the comparisons are subset and superset tests on key sets: lt
is proper subset, le subset, gt proper superset, ge superset; and two
key-disjoint nonempty bundles are related by none of lt, gt or
equality. -/
theorem c9_comparisons (A B : MetadataBundle) :
    (A.ltPy B = true ↔
      (dictKeys A.metadataEntries).toFinset ⊂ (dictKeys B.metadataEntries).toFinset) ∧
    (A.lePy B = true ↔
      (dictKeys A.metadataEntries).toFinset ⊆ (dictKeys B.metadataEntries).toFinset) ∧
    (A.gtPy B = true ↔
      (dictKeys B.metadataEntries).toFinset ⊂ (dictKeys A.metadataEntries).toFinset) ∧
    (A.gePy B = true ↔
      (dictKeys B.metadataEntries).toFinset ⊆ (dictKeys A.metadataEntries).toFinset) ∧
    ((∀ k ∈ dictKeys A.metadataEntries, k ∉ dictKeys B.metadataEntries) →
      A.metadataEntries ≠ [] → B.metadataEntries ≠ [] →
      A.ltPy B = false ∧ A.gtPy B = false ∧ bundleEqB A B = false) := by
  refine ⟨?_, ?_, ?_, ?_, ?_⟩
  · exact and_not_subsetB_iff _ _
  · exact subsetB_iff _ _
  · exact and_not_subsetB_iff _ _
  · exact subsetB_iff _ _
  · intro hdisj hA hB
    obtain ⟨⟨ka, va⟩, hka⟩ := List.exists_mem_of_ne_nil _ hA
    obtain ⟨⟨kb, vb⟩, hkb⟩ := List.exists_mem_of_ne_nil _ hB
    have hkamem : ka ∈ dictKeys A.metadataEntries :=
      List.mem_map.mpr ⟨(ka, va), hka, rfl⟩
    have hkbmem : kb ∈ dictKeys B.metadataEntries :=
      List.mem_map.mpr ⟨(kb, vb), hkb, rfl⟩
    have h1 : subsetB (dictKeys A.metadataEntries) (dictKeys B.metadataEntries) = false := by
      rw [Bool.eq_false_iff]
      intro hc
      rw [subsetB, List.all_eq_true] at hc
      have := hc ka hkamem
      rw [decide_eq_true_eq] at this
      exact hdisj ka hkamem this
    have h2 : subsetB (dictKeys B.metadataEntries) (dictKeys A.metadataEntries) = false := by
      rw [Bool.eq_false_iff]
      intro hc
      rw [subsetB, List.all_eq_true] at hc
      have := hc kb hkbmem
      rw [decide_eq_true_eq] at this
      exact hdisj kb this hkbmem
    refine ⟨?_, ?_, ?_⟩
    · rw [MetadataBundle.ltPy, runSetPred, h1, Bool.false_and]
    · rw [MetadataBundle.gtPy, runSetPred, h2, Bool.false_and]
    · rw [bundleEqB, dictBeq, Bool.and_eq_false_iff]
      left
      rw [Bool.eq_false_iff]
      intro hc
      rw [List.all_eq_true] at hc
      have := hc (ka, va) hka
      have hnone : dictGet B.metadataEntries ka = none :=
        (dictGet_eq_none_iff _ _).mpr (hdisj ka hkamem)
      rw [hnone] at this
      simp at this

/-- C9 witness: two concrete key-disjoint one-entry bundles are related
by neither lt nor gt nor equality. -/
theorem c9_comparisons_witness :
    bundleWA.ltPy bundleWB = false ∧ bundleWA.gtPy bundleWB = false ∧
    bundleEqB bundleWA bundleWB = false :=
  (c9_comparisons bundleWA bundleWB).2.2.2.2 (by decide)
    (by simp [bundleWA]) (by simp [bundleWB])

/-! ## Helper lemma for read -/

theorem filePath_eq_none_iff (b : MetadataBundle) (env : CorpusEnv) :
    b.filePath env = none ↔ b.name = none := by
  cases hn : b.name with
  | none => simp [MetadataBundle.filePath, hn]
  | some n =>
    simp only [MetadataBundle.filePath, hn]
    split_ifs <;> simp

/-- C6: read raises exactly when no path resolves, which happens
exactly when no argument is given and the bundle is anonymous (and the
only raised error is the MetadataException configuration error); when
the resolved file does not exist read returns the bundle unchanged; and
otherwise it replaces the entries with the deserialized snapshot. -/
theorem c6_read_behavior (b : MetadataBundle) (env : CorpusEnv)
    (fs : FileSystem) (filePathArg : Option String) :
    (b.read env fs filePathArg = Except.error PyError.metadataException ↔
      (filePathArg = none ∧ b.name = none)) ∧
    (∀ er, b.read env fs filePathArg = Except.error er →
      er = PyError.metadataException) ∧
    (∀ p, resolveReadPath b env filePathArg = some p → fs.pathExists p = false →
      b.read env fs filePathArg = Except.ok b) ∧
    (∀ p, resolveReadPath b env filePathArg = some p → fs.pathExists p = true →
      b.read env fs filePathArg =
        Except.ok { b with metadataEntries := fs.snapshotEntries p }) := by
  cases harg : filePathArg with
  | some p0 =>
    have hfp : resolveReadPath b env (some p0) = some p0 := rfl
    refine ⟨?_, ?_, ?_, ?_⟩
    · rw [MetadataBundle.read]
      simp only [hfp]
      constructor
      · intro h
        rw [if_neg (by simp)] at h
        by_cases he : fs.pathExists p0 = false <;> simp [he] at h
      · rintro ⟨h, -⟩
        cases h
    · intro er h
      rw [MetadataBundle.read] at h
      simp only [hfp] at h
      rw [if_neg (by simp)] at h
      by_cases he : fs.pathExists p0 = false <;> simp [he] at h
    · intro p hp he
      rw [resolveReadPath] at hp
      injection hp with hp
      subst hp
      rw [MetadataBundle.read]
      simp only [hfp]
      rw [if_neg (by simp)]
      simp [he]
    · intro p hp he
      rw [resolveReadPath] at hp
      injection hp with hp
      subst hp
      rw [MetadataBundle.read]
      simp only [hfp]
      rw [if_neg (by simp)]
      simp [he]
  | none =>
    cases hn : b.name with
    | none =>
      have hfp : resolveReadPath b env none = none := by
        rw [resolveReadPath, filePath_eq_none_iff]
        exact hn
      refine ⟨?_, ?_, ?_, ?_⟩
      · rw [MetadataBundle.read]
        simp only [hfp]
        rw [if_pos (by simp [hn])]
        simp [hn]
      · intro er h
        rw [MetadataBundle.read] at h
        simp only [hfp] at h
        rw [if_pos (by simp [hn])] at h
        injection h with h
        exact h.symm
      · intro p hp
        rw [hfp] at hp
        cases hp
      · intro p hp
        rw [hfp] at hp
        cases hp
    | some n =>
      cases hq : b.filePath env with
      | none =>
        rw [filePath_eq_none_iff] at hq
        rw [hq] at hn
        cases hn
      | some q =>
        have hfp : resolveReadPath b env none = some q := by
          rw [resolveReadPath, hq]
        refine ⟨?_, ?_, ?_, ?_⟩
        · rw [MetadataBundle.read]
          simp only [hfp]
          constructor
          · intro h
            rw [if_neg (by simp [hn])] at h
            by_cases he : fs.pathExists q = false <;> simp [he] at h
          · rintro ⟨-, h⟩
            simp [hn] at h
        · intro er h
          rw [MetadataBundle.read] at h
          simp only [hfp] at h
          rw [if_neg (by simp [hn])] at h
          by_cases he : fs.pathExists q = false <;> simp [he] at h
        · intro p hp he
          rw [hfp] at hp
          injection hp with hp
          subst hp
          rw [MetadataBundle.read]
          simp only [hfp]
          rw [if_neg (by simp [hn])]
          simp [he]
        · intro p hp he
          rw [hfp] at hp
          injection hp with hp
          subst hp
          rw [MetadataBundle.read]
          simp only [hfp]
          rw [if_neg (by simp [hn])]
          rw [if_neg (by simp [he])]
          rw [hn]

/-- C6 witness: reading a named bundle whose snapshot file does not
exist returns the bundle unchanged (the no-op branch). -/
theorem c6_read_behavior_witness :
    bundleWCore.read envW fsNoW none = Except.ok bundleWCore :=
  (c6_read_behavior bundleWCore envW fsNoW none).2.2.1 "/cache/core.json" rfl rfl

/-- C2 counterexample: a source whose change time equals the snapshot
time is not newer than the snapshot, its key is cached and not
network-addressed, yet addFromPaths schedules a rebuild job for it (the
code skips only on strictly older sources). -/
theorem c2_counterexample :
    (fun _ => (100 : ℚ)) "/data/a.xml" ≤ (100 : ℚ) ∧
    corpusPathToKey "/data/a.xml" none ∈ ["data_a_xml"] ∧
    strStartsWith (corpusPathToKey "/data/a.xml" none) "http" = false ∧
    addFromPathsScheduled ["data_a_xml"] 100 (fun _ => (100 : ℚ)) (fun s => s)
      ["/data/a.xml"] = ["/data/a.xml"] :=
  ⟨le_refl _, by decide, by decide, by decide⟩

/-- C2 (amended): for a path whose canonical key is already cached and
not network-addressed, no rebuild job is scheduled exactly when the
source change time is strictly older than the snapshot change time
captured at the start of the call; when it is equal or newer, a job is
scheduled. -/
theorem c2_staleness (entriesKeys : List String) (bundleTime : ℚ)
    (getctime : String → ℚ) (abspath : String → String) (p : String)
    (hmem : corpusPathToKey (normalizeAddPath abspath p) none ∈ entriesKeys)
    (hnet : strStartsWith (corpusPathToKey (normalizeAddPath abspath p) none)
      "http" = false) :
    (getctime (normalizeAddPath abspath p) < bundleTime →
      addFromPathsScheduled entriesKeys bundleTime getctime abspath [p] = []) ∧
    (bundleTime ≤ getctime (normalizeAddPath abspath p) →
      addFromPathsScheduled entriesKeys bundleTime getctime abspath [p] =
        [normalizeAddPath abspath p]) := by
  constructor
  · intro h
    simp [addFromPathsScheduled, hmem, hnet, h]
  · intro h
    simp [addFromPathsScheduled, hmem, hnet, not_lt.mpr h]

/-- C2 witness: a cached, non-network path strictly older than the
snapshot is skipped (no job scheduled). -/
theorem c2_staleness_witness :
    addFromPathsScheduled ["data_a_xml"] 100 (fun _ => (99 : ℚ)) (fun s => s)
      ["/data/a.xml"] = [] :=
  (c2_staleness ["data_a_xml"] 100 (fun _ => (99 : ℚ)) (fun s => s) "/data/a.xml"
    (by decide) (by decide)).1 (by norm_num)

/-! ## Helper lemmas for the set-algebra laws -/

theorem applySetOperation_entries (op : SetOp) (A B : MetadataBundle) :
    (applySetOperation op A B).metadataEntries =
      (runSetOp op (dictKeys A.metadataEntries) (dictKeys B.metadataEntries)).filterMap
        (fun k => (pickEntry A.metadataEntries B.metadataEntries k).map
          fun e => (k, e)) :=
  rfl

theorem nodup_runSetOp (op : SetOp) (s o : List String)
    (hs : s.Nodup) (ho : o.Nodup) : (runSetOp op s o).Nodup := by
  have hdisj1 : List.Disjoint s (o.filter (fun k => !decide (k ∈ s))) := by
    intro a ha hb
    rw [List.mem_filter] at hb
    simp at hb
    exact hb.2 ha
  have hdisj2 : List.Disjoint (s.filter (fun k => !decide (k ∈ o)))
      (o.filter (fun k => !decide (k ∈ s))) := by
    intro a ha hb
    rw [List.mem_filter] at ha
    rw [List.mem_filter] at hb
    simp at ha hb
    exact hb.2 ha.1
  cases op
  case union => exact hs.append (ho.filter _) hdisj1
  case orOp => exact hs.append (ho.filter _) hdisj1
  case intersection => exact hs.filter _
  case andOp => exact hs.filter _
  case difference => exact hs.filter _
  case subOp => exact hs.filter _
  case symmetricDifference => exact (hs.filter _).append (ho.filter _) hdisj2
  case xorOp => exact (hs.filter _).append (ho.filter _) hdisj2

theorem nodup_keys_applySetOperation (op : SetOp) (A B : MetadataBundle)
    (hA : (dictKeys A.metadataEntries).Nodup)
    (hB : (dictKeys B.metadataEntries).Nodup) :
    (dictKeys (applySetOperation op A B).metadataEntries).Nodup := by
  rw [applySetOperation_entries, dictKeys_pickMap]
  exact (nodup_runSetOp op _ _ hA hB).filter _

theorem dictBeq_of (d1 d2 : List (String × MetadataEntry))
    (h1 : (dictKeys d1).Nodup) (h2 : (dictKeys d2).Nodup)
    (hk : ∀ j, j ∈ dictKeys d1 ↔ j ∈ dictKeys d2)
    (hv : ∀ j e1 e2, dictGet d1 j = some e1 → dictGet d2 j = some e2 →
      e1.oid = e2.oid) :
    dictBeq d1 d2 = true := by
  rw [dictBeq, Bool.and_eq_true]
  constructor
  · rw [List.all_eq_true]
    rintro ⟨k, v⟩ hm
    have hg1 : dictGet d1 k = some v := dictGet_of_mem_nodup _ h1 _ _ hm
    have hmem2 : k ∈ dictKeys d2 := (hk k).mp (List.mem_map.mpr ⟨(k, v), hm, rfl⟩)
    rw [← dictGet_isSome_iff] at hmem2
    cases hg2 : dictGet d2 k with
    | none => rw [hg2] at hmem2; simp at hmem2
    | some w =>
      simp only [hg2, entrySame]
      simp [hv k v w hg1 hg2]
  · rw [List.all_eq_true]
    rintro ⟨k, v⟩ hm
    have hg2 : dictGet d2 k = some v := dictGet_of_mem_nodup _ h2 _ _ hm
    have hmem1 : k ∈ dictKeys d1 := (hk k).mpr (List.mem_map.mpr ⟨(k, v), hm, rfl⟩)
    rw [← dictGet_isSome_iff] at hmem1
    cases hg1 : dictGet d1 k with
    | none => rw [hg1] at hmem1; simp at hmem1
    | some w =>
      simp only [hg1, entrySame]
      simp [hv k w v hg1 hg2]

theorem length_filter_mem_comm (s o : List String)
    (hs : s.Nodup) (ho : o.Nodup) :
    (s.filter (fun k => decide (k ∈ o))).length =
      (o.filter (fun k => decide (k ∈ s))).length := by
  have h1 : (s.filter (fun k => decide (k ∈ o))).toFinset =
      s.toFinset ∩ o.toFinset := by
    ext x
    simp [List.mem_toFinset, List.mem_filter, Finset.mem_inter]
  have h2 : (o.filter (fun k => decide (k ∈ s))).toFinset =
      o.toFinset ∩ s.toFinset := by
    ext x
    simp [List.mem_toFinset, List.mem_filter, Finset.mem_inter]
  calc (s.filter (fun k => decide (k ∈ o))).length
      = (s.filter (fun k => decide (k ∈ o))).toFinset.card :=
        (List.toFinset_card_of_nodup (hs.filter _)).symm
    _ = (s.toFinset ∩ o.toFinset).card := by rw [h1]
    _ = (o.toFinset ∩ s.toFinset).card := by rw [Finset.inter_comm]
    _ = (o.filter (fun k => decide (k ∈ s))).toFinset.card := by rw [h2]
    _ = (o.filter (fun k => decide (k ∈ s))).length :=
        List.toFinset_card_of_nodup (ho.filter _)

theorem length_filter_split {α : Type} (l : List α) (p : α → Bool) :
    l.length = (l.filter p).length + (l.filter (fun x => !p x)).length := by
  induction l with
  | nil => rfl
  | cons a t ih =>
    by_cases h : p a = true
    · simp [List.filter_cons, h]
      omega
    · have h2 : p a = false := Bool.eq_false_iff.mpr h
      simp [List.filter_cons, h2]
      omega

theorem length_applySetOperation (op : SetOp) (A B : MetadataBundle) :
    (applySetOperation op A B).metadataEntries.length =
      (runSetOp op (dictKeys A.metadataEntries)
        (dictKeys B.metadataEntries)).length := by
  rw [applySetOperation_entries]
  apply length_pickMap
  intro k hk
  exact pickEntry_isSome _ _ _ (mem_runSetOp_orig _ _ _ _ hk)

/-- C4 (amended): for bundles with duplicate-free keys that hold the
identical entry object at every shared key, union is idempotent on the
right, intersection is commutative, and the entry counts satisfy
inclusion-exclusion.  (Without the shared-key agreement, commutativity
of intersection fails, because Python compares the entries of the two
results by object identity.) -/
theorem c4_set_algebra (A B : MetadataBundle)
    (hA : (dictKeys A.metadataEntries).Nodup)
    (hB : (dictKeys B.metadataEntries).Nodup)
    (hAgree : ∀ k e1 e2, dictGet A.metadataEntries k = some e1 →
      dictGet B.metadataEntries k = some e2 → e1.oid = e2.oid) :
    bundleEqB ((A.union B).union B) (A.union B) = true ∧
    bundleEqB (A.intersection B) (B.intersection A) = true ∧
    ((A.union B).metadataEntries.length : ℤ) =
      (A.metadataEntries.length : ℤ) + (B.metadataEntries.length : ℤ) -
        ((A.intersection B).metadataEntries.length : ℤ) := by
  have hU : (dictKeys (A.union B).metadataEntries).Nodup :=
    nodup_keys_applySetOperation .union A B hA hB
  have hmemU : ∀ j, j ∈ dictKeys (A.union B).metadataEntries ↔
      j ∈ dictKeys A.metadataEntries ∨ j ∈ dictKeys B.metadataEntries := by
    intro j
    rw [MetadataBundle.union, mem_dictKeys_applySetOperation, mem_runSetOp]
    rfl
  refine ⟨?_, ?_, ?_⟩
  · rw [bundleEqB]
    apply dictBeq_of
    · exact nodup_keys_applySetOperation .union (A.union B) B hU hB
    · exact hU
    · intro j
      rw [MetadataBundle.union, mem_dictKeys_applySetOperation, mem_runSetOp]
      show j ∈ dictKeys (A.union B).metadataEntries ∨
          j ∈ dictKeys B.metadataEntries ↔ _
      rw [hmemU j]
      tauto
    · intro j e1 e2 hg1 hg2
      rw [MetadataBundle.union, dictGet_applySetOperation] at hg1
      by_cases hj : j ∈ runSetOp SetOp.union
          (dictKeys (A.union B).metadataEntries)
          (dictKeys B.metadataEntries)
      · rw [if_pos hj, pickEntry_eq] at hg1
        have hjU : j ∈ dictKeys (A.union B).metadataEntries := by
          rw [← dictGet_isSome_iff, hg2]
          rfl
        rw [if_pos hjU, hg2] at hg1
        injection hg1 with hg1
        rw [hg1]
      · rw [if_neg hj] at hg1
        cases hg1
  · rw [bundleEqB]
    apply dictBeq_of
    · exact nodup_keys_applySetOperation .intersection A B hA hB
    · exact nodup_keys_applySetOperation .intersection B A hB hA
    · intro j
      rw [MetadataBundle.intersection, MetadataBundle.intersection,
        mem_dictKeys_applySetOperation, mem_dictKeys_applySetOperation,
        mem_runSetOp, mem_runSetOp]
      show j ∈ dictKeys A.metadataEntries ∧ j ∈ dictKeys B.metadataEntries ↔
        j ∈ dictKeys B.metadataEntries ∧ j ∈ dictKeys A.metadataEntries
      tauto
    · intro j e1 e2 hg1 hg2
      rw [MetadataBundle.intersection, dictGet_applySetOperation] at hg1 hg2
      by_cases hj1 : j ∈ runSetOp SetOp.intersection
          (dictKeys A.metadataEntries) (dictKeys B.metadataEntries)
      · by_cases hj2 : j ∈ runSetOp SetOp.intersection
            (dictKeys B.metadataEntries) (dictKeys A.metadataEntries)
        · rw [if_pos hj1, pickEntry_eq] at hg1
          rw [if_pos hj2, pickEntry_eq] at hg2
          have hjA : j ∈ dictKeys A.metadataEntries := by
            rw [mem_runSetOp] at hj1
            exact hj1.1
          have hjB : j ∈ dictKeys B.metadataEntries := by
            rw [mem_runSetOp] at hj1
            exact hj1.2
          rw [if_pos hjA] at hg1
          rw [if_pos hjB] at hg2
          exact hAgree j e1 e2 hg1 hg2
        · rw [if_neg hj2] at hg2
          cases hg2
      · rw [if_neg hj1] at hg1
        cases hg1
  · rw [MetadataBundle.union, MetadataBundle.intersection,
      length_applySetOperation, length_applySetOperation]
    simp only [runSetOp, List.length_append]
    have hsplit := length_filter_split (dictKeys B.metadataEntries)
      (fun k => decide (k ∈ dictKeys A.metadataEntries))
    have hcomm := length_filter_mem_comm (dictKeys A.metadataEntries)
      (dictKeys B.metadataEntries) hA hB
    have hlA : (dictKeys A.metadataEntries).length = A.metadataEntries.length := by
      simp [dictKeys]
    have hlB : (dictKeys B.metadataEntries).length = B.metadataEntries.length := by
      simp [dictKeys]
    omega

/-- C4 counterexample: two bundles holding distinct entry objects under
the same key.  Python compares entries by identity, so the two
intersections, which pull the entry from their respective self side,
are not equal: intersection is not commutative as claimed. -/
theorem c4_counterexample :
    bundleEqB (cexBundleA.intersection cexBundleB)
      (cexBundleB.intersection cexBundleA) = false := by
  decide

/-- C4 witness: the amended set-algebra laws hold at two concrete
key-disjoint bundles. -/
theorem c4_set_algebra_witness :
    bundleEqB ((bundleWA.union bundleWB).union bundleWB)
      (bundleWA.union bundleWB) = true ∧
    bundleEqB (bundleWA.intersection bundleWB)
      (bundleWB.intersection bundleWA) = true ∧
    ((bundleWA.union bundleWB).metadataEntries.length : ℤ) =
      (bundleWA.metadataEntries.length : ℤ) +
        (bundleWB.metadataEntries.length : ℤ) -
        ((bundleWA.intersection bundleWB).metadataEntries.length : ℤ) := by
  apply c4_set_algebra bundleWA bundleWB (by decide) (by decide)
  intro k e1 e2 h1 h2
  have hk1 : k ∈ dictKeys bundleWA.metadataEntries := by
    rw [← dictGet_isSome_iff, h1]
    rfl
  have hk2 : k ∈ dictKeys bundleWB.metadataEntries := by
    rw [← dictGet_isSome_iff, h2]
    rfl
  simp [bundleWA, bundleWB, dictKeys] at hk1 hk2
  subst hk1
  exact absurd hk2 (by decide)

/-! ## Helper lemmas for search -/

theorem dictGet_append (d1 d2 : List (String × MetadataEntry)) (j : String) :
    dictGet (d1 ++ d2) j =
      match dictGet d1 j with
      | some e => some e
      | none => dictGet d2 j := by
  induction d1 with
  | nil => simp [dictGet]
  | cons kv rest ih =>
    obtain ⟨k, v⟩ := kv
    by_cases hk : k = j
    · subst hk
      simp [dictGet]
    · simp [dictGet, hk, ih]

theorem searchLoop_eq (query : String) (field : Option String)
    (exts : Option (List String)) (l : List (String × MetadataEntry)) :
    ∀ acc, (dictKeys l).Nodup →
    (∀ kv ∈ l, dictGet acc kv.1 = none) →
    searchLoop query field exts l acc =
      acc ++ l.filter (fun kv => searchKeeps query field exts kv.2) := by
  induction l with
  | nil =>
    intro acc _ _
    simp [searchLoop]
  | cons kv rest ih =>
    intro acc hnd hacc
    obtain ⟨k0, e0⟩ := kv
    rw [dictKeys, List.map_cons, List.nodup_cons] at hnd
    have haccrest : ∀ kv ∈ rest, dictGet acc kv.1 = none :=
      fun kv hkv => hacc kv (List.mem_cons_of_mem _ hkv)
    cases hp : e0.metadataPayload with
    | none =>
      rw [searchLoop]
      simp only [hp]
      rw [ih acc hnd.2 haccrest, List.filter_cons]
      have hkeep : searchKeeps query field exts (k0, e0).2 = false := by
        simp [searchKeeps, hp]
      rw [hkeep]
      simp
    | some p =>
      by_cases hm : p.searchMatch query field = true
      · by_cases hf : extensionFilter exts e0.sourcePath = true
        · have hget : dictGet acc k0 = none := hacc (k0, e0) (List.mem_cons_self _ _)
          have hacc2 : ∀ kv ∈ rest, dictGet (acc ++ [(k0, e0)]) kv.1 = none := by
            intro kv hkv
            rw [dictGet_append, haccrest kv hkv]
            have hne : k0 ≠ kv.1 := by
              intro he
              exact hnd.1 (he ▸ List.mem_map.mpr ⟨kv, hkv, rfl⟩)
            simp [dictGet, hne]
          rw [searchLoop]
          simp only [hp]
          rw [if_pos hm, if_pos (by rw [hf, hget]; rfl)]
          rw [ih (acc ++ [(k0, e0)]) hnd.2 hacc2, List.filter_cons]
          have hkeep : searchKeeps query field exts (k0, e0).2 = true := by
            simp [searchKeeps, hp, hm, hf]
          rw [hkeep]
          simp
        · have hf2 : extensionFilter exts e0.sourcePath = false :=
            Bool.eq_false_iff.mpr hf
          rw [searchLoop]
          simp only [hp]
          rw [if_pos hm, if_neg (by rw [hf2]; simp)]
          rw [ih acc hnd.2 haccrest, List.filter_cons]
          have hkeep : searchKeeps query field exts (k0, e0).2 = false := by
            simp [searchKeeps, hp, hf2]
          rw [hkeep]
          simp
      · have hm2 : p.searchMatch query field = false := Bool.eq_false_iff.mpr hm
        rw [searchLoop]
        simp only [hp]
        rw [if_neg (by rw [hm2]; simp)]
        rw [ih acc hnd.2 haccrest, List.filter_cons]
        have hkeep : searchKeeps query field exts (k0, e0).2 = false := by
          simp [searchKeeps, hp, hm2]
        rw [hkeep]
        simp

theorem dictKeys_filter_sub (l : List (String × MetadataEntry))
    (q : String × MetadataEntry → Bool) (j : String)
    (h : j ∈ dictKeys (l.filter q)) : j ∈ dictKeys l := by
  rw [dictKeys, List.mem_map] at h
  obtain ⟨kv, hkv, rfl⟩ := h
  rw [dictKeys, List.mem_map]
  exact ⟨kv, (List.mem_filter.mp hkv).1, rfl⟩

theorem dictGet_filter (l : List (String × MetadataEntry))
    (p : MetadataEntry → Bool) (hnd : (dictKeys l).Nodup) (j : String) :
    dictGet (l.filter (fun kv => p kv.2)) j =
      match dictGet l j with
      | some e => if p e then some e else none
      | none => none := by
  induction l with
  | nil => simp [dictGet]
  | cons kv rest ih =>
    obtain ⟨k, v⟩ := kv
    rw [dictKeys, List.map_cons, List.nodup_cons] at hnd
    by_cases hk : k = j
    · subst hk
      rw [List.filter_cons]
      by_cases hp : p v = true
      · rw [if_pos (by simpa using hp)]
        simp [dictGet, hp]
      · have hp2 : p v = false := Bool.eq_false_iff.mpr hp
        rw [if_neg (by simp [hp2])]
        have hnone : dictGet (rest.filter (fun kv => p kv.2)) k = none := by
          rw [dictGet_eq_none_iff]
          intro hc
          exact hnd.1 (dictKeys_filter_sub _ _ _ hc)
        rw [hnone]
        simp [dictGet, hp2]
    · rw [List.filter_cons]
      by_cases hp : p v = true
      · rw [if_pos (by simpa using hp)]
        simp only [dictGet, if_neg hk]
        exact ih hnd.2
      · have hp2 : p v = false := Bool.eq_false_iff.mpr hp
        rw [if_neg (by simp [hp2])]
        rw [ih hnd.2]
        simp [dictGet, hk]

theorem extLoop_iff (sp : String) (exts : List String) :
    extLoop sp exts = true ↔
      (∃ ext ∈ exts, strEndsWith sp ext = true) ∨
      (∃ ext ∈ exts, strEndsWith ext "xml" = true ∧
        (strEndsWith sp "mxl" = true ∨ strEndsWith sp "mx" = true)) := by
  induction exts with
  | nil => simp [extLoop]
  | cons ext rest ih =>
    rw [extLoop]
    by_cases h1 : strEndsWith sp ext = true
    · rw [if_pos h1]
      constructor
      · intro _
        exact Or.inl ⟨ext, List.mem_cons_self _ _, h1⟩
      · intro _
        rfl
    · rw [if_neg h1]
      by_cases h2 : (strEndsWith ext "xml" &&
          (strEndsWith sp "mxl" || strEndsWith sp "mx")) = true
      · rw [if_pos h2]
        rw [Bool.and_eq_true, Bool.or_eq_true] at h2
        constructor
        · intro _
          exact Or.inr ⟨ext, List.mem_cons_self _ _, h2.1, h2.2⟩
        · intro _
          rfl
      · rw [if_neg h2]
        rw [ih]
        rw [Bool.and_eq_true, Bool.or_eq_true] at h2
        constructor
        · rintro (⟨x, hx, hxe⟩ | ⟨x, hx, hxx, hxc⟩)
          · exact Or.inl ⟨x, List.mem_cons_of_mem _ hx, hxe⟩
          · exact Or.inr ⟨x, List.mem_cons_of_mem _ hx, hxx, hxc⟩
        · rintro (⟨x, hx, hxe⟩ | ⟨x, hx, hxx, hxc⟩)
          · rcases List.mem_cons.mp hx with rfl | hx2
            · exact absurd hxe h1
            · exact Or.inl ⟨x, hx2, hxe⟩
          · rcases List.mem_cons.mp hx with rfl | hx2
            · exact absurd ⟨hxx, hxc⟩ h2
            · exact Or.inr ⟨x, hx2, hxx, hxc⟩

theorem searchKeeps_iff (query : String) (field : Option String)
    (exts : Option (List String)) (e : MetadataEntry) :
    searchKeeps query field exts e = true ↔ searchSpecKeeps query field exts e := by
  rw [searchKeeps, searchSpecKeeps]
  cases hp : e.metadataPayload with
  | none => simp
  | some p =>
    rw [Bool.and_eq_true]
    constructor
    · rintro ⟨hm, hf⟩
      refine ⟨p, rfl, hm, ?_⟩
      cases hx : exts with
      | none => exact Or.inl rfl
      | some l =>
        rw [hx] at hf
        rw [extensionFilter] at hf
        rw [extLoop_iff] at hf
        rcases hf with ⟨x, hx1, hx2⟩ | ⟨x, hx1, hx2, hx3⟩
        · exact Or.inr (Or.inl ⟨l, x, rfl, hx1, hx2⟩)
        · exact Or.inr (Or.inr ⟨l, x, rfl, hx1, hx2, hx3⟩)
    · rintro ⟨p2, hp2, hm, hdisj⟩
      injection hp2 with hp2
      subst hp2
      refine ⟨hm, ?_⟩
      rcases hdisj with rfl | ⟨l, x, rfl, hx1, hx2⟩ | ⟨l, x, rfl, hx1, hx2, hx3⟩
      · rfl
      · rw [extensionFilter, extLoop_iff]
        exact Or.inl ⟨x, hx1, hx2⟩
      · rw [extensionFilter, extLoop_iff]
        exact Or.inr ⟨x, hx1, hx2, hx3⟩

/-- C5: search returns a new anonymous bundle (the source bundle is a
pure input and stays untouched) whose mapping holds precisely those
entries of the source, at their keys, whose payload is non-null and
reports a match for the query scoped to the optional field, and which
pass the extension filter: no filter given, or the source path ends
with a filter member, or a filter member is xml-family while the
source path carries a recognized container extension (mxl or mx). -/
theorem c5_search (b : MetadataBundle) (query : String) (field : Option String)
    (exts : Option (List String))
    (hnd : (dictKeys b.metadataEntries).Nodup) :
    (b.search query field exts).name = none ∧
    (∀ k e, dictGet (b.search query field exts).metadataEntries k = some e ↔
      (dictGet b.metadataEntries k = some e ∧ searchSpecKeeps query field exts e)) := by
  have hloop : (b.search query field exts).metadataEntries =
      b.metadataEntries.filter (fun kv => searchKeeps query field exts kv.2) := by
    show searchLoop query field exts b.metadataEntries [] = _
    rw [searchLoop_eq query field exts b.metadataEntries [] hnd
      (fun kv _ => rfl)]
    rfl
  refine ⟨rfl, ?_⟩
  intro k e
  rw [hloop, dictGet_filter _ _ hnd]
  cases hg : dictGet b.metadataEntries k with
  | none => simp
  | some e0 =>
    by_cases hk : searchKeeps query field exts e0 = true
    · simp only [if_pos hk]
      constructor
      · intro h
        injection h with h
        subst h
        exact ⟨rfl, (searchKeeps_iff _ _ _ _).mp hk⟩
      · rintro ⟨h1, -⟩
        injection h1 with h1
        rw [h1]
    · have hk2 : searchKeeps query field exts e0 = false := Bool.eq_false_iff.mpr hk
      simp only [hk2, if_false]
      constructor
      · intro h
        cases h
      · rintro ⟨h1, h2⟩
        injection h1 with h1
        subst h1
        exact absurd ((searchKeeps_iff _ _ _ _).mpr h2) hk

/-- C5 witness: with the filter set to the single extension .xml, the
entry whose source ends in .mxl is included (container equivalence) and
the entry whose source ends in .krn is rejected. -/
theorem c5_search_witness :
    dictGet (bundleW5.search "bach" (some "composer")
      (some [".xml"])).metadataEntries "w_c_mxl" = some entryW3 ∧
    dictGet (bundleW5.search "bach" (some "composer")
      (some [".xml"])).metadataEntries "w_b_krn" = none := by
  have h := c5_search bundleW5 "bach" (some "composer") (some [".xml"]) (by decide)
  constructor
  · apply (h.2 "w_c_mxl" entryW3).mpr
    refine ⟨rfl, payloadTrueW, rfl, rfl, Or.inr (Or.inr ?_)⟩
    exact ⟨[".xml"], ".xml", rfl, List.mem_singleton.mpr rfl, by decide, Or.inl (by decide)⟩
  · cases hh : dictGet (bundleW5.search "bach" (some "composer")
        (some [".xml"])).metadataEntries "w_b_krn" with
    | none => rfl
    | some e =>
      exfalso
      have hc := (h.2 "w_b_krn" e).mp hh
      have h1 : dictGet bundleW5.metadataEntries "w_b_krn" = some entryW2 := rfl
      rw [h1] at hc
      have he : entryW2 = e := by
        injection hc.1
      subst he
      rcases hc.2 with ⟨p, hp, hm, hdisj⟩
      rcases hdisj with h0 | ⟨l, x, hl, hx, hxe⟩ | ⟨l, x, hl, hx, hxx, hxc⟩
      · cases h0
      · injection hl with hl
        subst hl
        rcases List.mem_singleton.mp hx with rfl
        exact absurd hxe (by decide)
      · rcases hxc with hc1 | hc2
        · exact absurd hc1 (by decide)
        · exact absurd hc2 (by decide)

/-! ## Helper lemmas for validate -/

theorem validateAux_mem (fsExists : String → Bool) (corpusRoot : String) :
    ∀ (l : List (String × MetadataEntry)), (dictKeys l).Nodup →
    ∀ (seen inv : List String) (k : String),
    (k ∈ validateAux fsExists corpusRoot l seen inv ↔
      k ∈ inv ∨ ∃ e, (k, e) ∈ l ∧ e.sourcePath ∉ seen ∧
        firstKeyForPath l e.sourcePath = some k ∧
        strStartsWith e.sourcePath "http:" = false ∧
        fsExists (resolveSourcePath corpusRoot e.sourcePath) = false) := by
  intro l
  induction l with
  | nil =>
    intro _ seen inv k
    simp [validateAux]
  | cons kv rest ih =>
    intro hnd seen inv k
    obtain ⟨k0, e0⟩ := kv
    rw [dictKeys, List.map_cons, List.nodup_cons] at hnd
    have ihr := ih hnd.2
    by_cases hseen : e0.sourcePath ∈ seen
    · rw [validateAux, if_pos hseen, ihr seen inv k]
      apply or_congr_right
      constructor
      · rintro ⟨e, he, hs, hf, hh, hx⟩
        have hne : e0.sourcePath ≠ e.sourcePath := fun hq => hs (hq ▸ hseen)
        refine ⟨e, List.mem_cons_of_mem _ he, hs, ?_, hh, hx⟩
        rw [firstKeyForPath, if_neg hne]
        exact hf
      · rintro ⟨e, he, hs, hf, hh, hx⟩
        have hne : e0.sourcePath ≠ e.sourcePath := fun hq => hs (hq ▸ hseen)
        rcases List.mem_cons.mp he with heq | hmem
        · injection heq with h1 h2
          subst h2
          exact absurd hseen hs
        · refine ⟨e, hmem, hs, ?_, hh, hx⟩
          rw [firstKeyForPath, if_neg hne] at hf
          exact hf
    · by_cases hhttp : strStartsWith e0.sourcePath "http:" = true
      · rw [validateAux, if_neg hseen, if_pos hhttp,
          ihr (e0.sourcePath :: seen) inv k]
        apply or_congr_right
        constructor
        · rintro ⟨e, he, hs, hf, hh, hx⟩
          have hs2 : e.sourcePath ∉ seen := fun hq => hs (List.mem_cons_of_mem _ hq)
          have hne : e0.sourcePath ≠ e.sourcePath :=
            fun hq => hs (hq ▸ List.mem_cons_self _ _)
          refine ⟨e, List.mem_cons_of_mem _ he, hs2, ?_, hh, hx⟩
          rw [firstKeyForPath, if_neg hne]
          exact hf
        · rintro ⟨e, he, hs, hf, hh, hx⟩
          rcases List.mem_cons.mp he with heq | hmem
          · injection heq with h1 h2
            subst h2
            rw [hhttp] at hh
            cases hh
          · by_cases hsp : e0.sourcePath = e.sourcePath
            · rw [firstKeyForPath, if_pos hsp] at hf
              injection hf with hf
              subst hf
              exact absurd (List.mem_map.mpr ⟨(k0, e), hmem, rfl⟩) hnd.1
            · refine ⟨e, hmem, ?_, ?_, hh, hx⟩
              · intro hq
                rcases List.mem_cons.mp hq with h | h
                · exact hsp h.symm
                · exact hs h
              · rw [firstKeyForPath, if_neg hsp] at hf
                exact hf
      · by_cases hex : fsExists (resolveSourcePath corpusRoot e0.sourcePath) = true
        · rw [validateAux, if_neg hseen, if_neg hhttp]
          show k ∈ validateAux fsExists corpusRoot rest (e0.sourcePath :: seen)
              (if fsExists (resolveSourcePath corpusRoot e0.sourcePath) then inv
                else inv ++ [k0]) ↔ _
          rw [if_pos hex, ihr (e0.sourcePath :: seen) inv k]
          apply or_congr_right
          constructor
          · rintro ⟨e, he, hs, hf, hh, hx⟩
            have hs2 : e.sourcePath ∉ seen := fun hq => hs (List.mem_cons_of_mem _ hq)
            have hne : e0.sourcePath ≠ e.sourcePath :=
              fun hq => hs (hq ▸ List.mem_cons_self _ _)
            refine ⟨e, List.mem_cons_of_mem _ he, hs2, ?_, hh, hx⟩
            rw [firstKeyForPath, if_neg hne]
            exact hf
          · rintro ⟨e, he, hs, hf, hh, hx⟩
            rcases List.mem_cons.mp he with heq | hmem
            · injection heq with h1 h2
              subst h2
              rw [hex] at hx
              cases hx
            · by_cases hsp : e0.sourcePath = e.sourcePath
              · rw [firstKeyForPath, if_pos hsp] at hf
                injection hf with hf
                subst hf
                exact absurd (List.mem_map.mpr ⟨(k0, e), hmem, rfl⟩) hnd.1
              · refine ⟨e, hmem, ?_, ?_, hh, hx⟩
                · intro hq
                  rcases List.mem_cons.mp hq with h | h
                  · exact hsp h.symm
                  · exact hs h
                · rw [firstKeyForPath, if_neg hsp] at hf
                  exact hf
        · have hex2 : fsExists (resolveSourcePath corpusRoot e0.sourcePath) = false :=
            Bool.eq_false_iff.mpr hex
          rw [validateAux, if_neg hseen, if_neg hhttp]
          show k ∈ validateAux fsExists corpusRoot rest (e0.sourcePath :: seen)
              (if fsExists (resolveSourcePath corpusRoot e0.sourcePath) then inv
                else inv ++ [k0]) ↔ _
          rw [if_neg (by simp [hex2]), ihr (e0.sourcePath :: seen) (inv ++ [k0]) k]
          constructor
          · rintro (hin | ⟨e, he, hs, hf, hh, hx⟩)
            · rcases List.mem_append.mp hin with h | h
              · exact Or.inl h
              · rcases List.mem_singleton.mp h with rfl
                refine Or.inr ⟨e0, List.mem_cons_self _ _, hseen, ?_, ?_, hex2⟩
                · rw [firstKeyForPath, if_pos rfl]
                · exact Bool.eq_false_iff.mpr hhttp
            · have hs2 : e.sourcePath ∉ seen := fun hq => hs (List.mem_cons_of_mem _ hq)
              have hne : e0.sourcePath ≠ e.sourcePath :=
                fun hq => hs (hq ▸ List.mem_cons_self _ _)
              refine Or.inr ⟨e, List.mem_cons_of_mem _ he, hs2, ?_, hh, hx⟩
              rw [firstKeyForPath, if_neg hne]
              exact hf
          · rintro (hin | ⟨e, he, hs, hf, hh, hx⟩)
            · exact Or.inl (List.mem_append.mpr (Or.inl hin))
            · rcases List.mem_cons.mp he with heq | hmem
              · injection heq with h1 h2
                subst h2
                subst h1
                exact Or.inl (List.mem_append.mpr
                  (Or.inr (List.mem_singleton.mpr rfl)))
              · by_cases hsp : e0.sourcePath = e.sourcePath
                · rw [firstKeyForPath, if_pos hsp] at hf
                  injection hf with hf
                  subst hf
                  exact absurd (List.mem_map.mpr ⟨(k0, e), hmem, rfl⟩) hnd.1
                · refine Or.inr ⟨e, hmem, ?_, ?_, hh, hx⟩
                  · intro hq
                    rcases List.mem_cons.mp hq with h | h
                    · exact hsp h.symm
                    · exact hs h
                  · rw [firstKeyForPath, if_neg hsp] at hf
                    exact hf

theorem validateAux_nodup (fsExists : String → Bool) (corpusRoot : String) :
    ∀ (l : List (String × MetadataEntry)) (seen inv : List String),
    (dictKeys l).Nodup → inv.Nodup →
    (∀ x ∈ inv, x ∉ dictKeys l) →
    (validateAux fsExists corpusRoot l seen inv).Nodup := by
  intro l
  induction l with
  | nil =>
    intro seen inv _ hinv _
    exact hinv
  | cons kv rest ih =>
    intro seen inv hnd hinv hdisj
    obtain ⟨k0, e0⟩ := kv
    rw [dictKeys, List.map_cons, List.nodup_cons] at hnd
    have hdisjrest : ∀ x ∈ inv, x ∉ dictKeys rest := by
      intro x hx hc
      exact hdisj x hx (List.mem_cons_of_mem _ hc)
    by_cases hseen : e0.sourcePath ∈ seen
    · rw [validateAux, if_pos hseen]
      exact ih seen inv hnd.2 hinv hdisjrest
    · by_cases hhttp : strStartsWith e0.sourcePath "http:" = true
      · rw [validateAux, if_neg hseen, if_pos hhttp]
        exact ih (e0.sourcePath :: seen) inv hnd.2 hinv hdisjrest
      · rw [validateAux, if_neg hseen, if_neg hhttp]
        show (validateAux fsExists corpusRoot rest (e0.sourcePath :: seen)
            (if fsExists (resolveSourcePath corpusRoot e0.sourcePath) then inv
              else inv ++ [k0])).Nodup
        by_cases hex : fsExists (resolveSourcePath corpusRoot e0.sourcePath) = true
        · rw [if_pos hex]
          exact ih (e0.sourcePath :: seen) inv hnd.2 hinv hdisjrest
        · rw [if_neg (by simp [Bool.eq_false_iff.mpr hex])]
          apply ih (e0.sourcePath :: seen) (inv ++ [k0]) hnd.2
          · apply hinv.append (List.nodup_singleton _)
            intro x hx hc
            rcases List.mem_singleton.mp hc with rfl
            exact hdisj x hx (List.mem_cons_self _ _)
          · intro x hx hc
            rcases List.mem_append.mp hx with h | h
            · exact hdisjrest x h hc
            · rcases List.mem_singleton.mp h with rfl
              exact hnd.1 hc

theorem map_fst_filter_key (d : List (String × MetadataEntry)) (q : String → Bool) :
    (d.filter (fun kv => q kv.1)).map Prod.fst = (d.map Prod.fst).filter q := by
  induction d with
  | nil => rfl
  | cons kv rest ih =>
    rw [List.filter_cons, List.map_cons, List.filter_cons]
    by_cases h : q kv.1 = true
    · rw [if_pos (by simpa using h), if_pos h, List.map_cons, ih]
    · have h2 : q kv.1 = false := Bool.eq_false_iff.mpr h
      rw [if_neg (by simp [h2]), if_neg (by simp [h2]), ih]

theorem length_filter_not_mem (d : List (String × MetadataEntry))
    (inv : List String) (hkeys : (dictKeys d).Nodup) (hinv : inv.Nodup)
    (hsub : ∀ x ∈ inv, x ∈ dictKeys d) :
    inv.length + (d.filter (fun kv => !decide (kv.1 ∈ inv))).length = d.length := by
  have h1 := length_filter_split d (fun kv => decide (kv.1 ∈ inv))
  have h2 : (d.filter (fun kv => decide (kv.1 ∈ inv))).length =
      ((dictKeys d).filter (fun k => decide (k ∈ inv))).length := by
    rw [dictKeys, ← map_fst_filter_key]
    simp
  have h3 := length_filter_mem_comm (dictKeys d) inv hkeys hinv
  have h4 : inv.filter (fun k => decide (k ∈ dictKeys d)) = inv :=
    List.filter_eq_self.mpr (fun a ha => by simpa using hsub a ha)
  have h5 : (inv.filter (fun k => decide (k ∈ dictKeys d))).length = inv.length := by
    rw [h4]
  omega

/-- C3 (amended): for a bundle with duplicate-free keys, validate
removes exactly, for each distinct non-network source path whose
resolved absolute path does not exist, the first entry in iteration
order bearing that source path (later entries with an already-examined
source path are skipped and kept, network entries are kept), and the
returned count is the number of entries removed. -/
theorem c3_validate (b : MetadataBundle) (fsExists : String → Bool)
    (corpusRoot : String) (hnd : (dictKeys b.metadataEntries).Nodup) :
    (∀ k, k ∈ b.invalidatedKeys fsExists corpusRoot ↔
      ∃ e, (k, e) ∈ b.metadataEntries ∧
        firstKeyForPath b.metadataEntries e.sourcePath = some k ∧
        strStartsWith e.sourcePath "http:" = false ∧
        fsExists (resolveSourcePath corpusRoot e.sourcePath) = false) ∧
    (b.validate fsExists corpusRoot).2.metadataEntries =
      b.metadataEntries.filter
        (fun kv => !decide (kv.1 ∈ b.invalidatedKeys fsExists corpusRoot)) ∧
    (b.validate fsExists corpusRoot).1 +
        (b.validate fsExists corpusRoot).2.metadataEntries.length =
      b.metadataEntries.length := by
  have hchar := validateAux_mem fsExists corpusRoot b.metadataEntries hnd [] []
  refine ⟨?_, rfl, ?_⟩
  · intro k
    rw [MetadataBundle.invalidatedKeys, hchar k]
    simp
  · have hsub : ∀ x ∈ b.invalidatedKeys fsExists corpusRoot,
        x ∈ dictKeys b.metadataEntries := by
      intro x hx
      rw [MetadataBundle.invalidatedKeys, hchar x] at hx
      rcases hx with h | ⟨e, he, -, -, -, -⟩
      · cases h
      · exact List.mem_map.mpr ⟨(x, e), he, rfl⟩
    have hinvnd : (b.invalidatedKeys fsExists corpusRoot).Nodup :=
      validateAux_nodup fsExists corpusRoot b.metadataEntries [] [] hnd
        List.nodup_nil (by intro x hx; cases hx)
    exact length_filter_not_mem b.metadataEntries _ hnd hinvnd hsub

/-- C3 counterexample: two entries under distinct keys k1 and k2 share
the missing source path /gone.xml; the claim says both are removed and
two removals are reported, but validate removes only the first entry,
returns 1, and keeps k2. -/
theorem c3_counterexample :
    strStartsWith "/gone.xml" "http:" = false ∧
    (fun _ => false : String → Bool) (resolveSourcePath "/root" "/gone.xml") = false ∧
    (cexBundleC3.validate (fun _ => false) "/root").1 = 1 ∧
    "k2" ∈ dictKeys (cexBundleC3.validate (fun _ => false) "/root").2.metadataEntries :=
  ⟨by decide, rfl, by decide, by decide⟩

/-- C3 witness: on the concrete two-entry bundle the returned count
plus the number of surviving entries equals the original size. -/
theorem c3_validate_witness :
    (cexBundleC3.validate (fun _ => false) "/root").1 +
        (cexBundleC3.validate (fun _ => false) "/root").2.metadataEntries.length =
      cexBundleC3.metadataEntries.length :=
  (c3_validate cexBundleC3 (fun _ => false) "/root" (by decide)).2.2
